import Mathlib

/-!
Verification of the utility layer in `src/app/static/js/script.js`
(admin_portal).  The JavaScript functions are shallowly embedded in Lean:

* Calendar dates are modelled as integer day numbers (days since
  1970-01-01, the epoch of ECMAScript dates).  The functions in the
  source only ever inspect the calendar day of a `Date` value, so a day
  number is a faithful state for them.  The ECMAScript `Date` internals
  (`getFullYear`, `getDay`, `Date.UTC(y, 0, 1)`) are modelled by
  `yearOfDay`, `dow` and `dayFromYear` below; `dayFromYear` is the
  `DayFromYear` formula of the ECMAScript specification, `yearOfDay` is
  its inverse (characterised by `yearOfDay_spec`), and `mkDate` is
  `MakeDay` restricted to in-range month/day arguments.
* JavaScript decimal printing of an integer (template literals,
  `String(n)`) is modelled by `jsNumToString`, `padStart(2, "0")` by
  `pad2`.
* Strings are handled through their character lists; the JavaScript
  regular expressions used by the source are compiled by hand into
  executable list functions (`scanSplit` and `tailBracketMatch` below);
  `\s` and `trim` use the full ECMAScript whitespace class (`isWsChar`),
  while `toLowerCase` is modelled on ASCII characters.
-/

/-! ### Model of the ECMAScript Date internals -/

/-- DayFromYear from the ECMAScript specification: the day number of
January 1 of year `y` (integer division is floor division, which is what
`/` on `ℤ` computes for positive divisors). -/
def dayFromYear (y : ℤ) : ℤ :=
  365 * (y - 1970) + (y - 1969) / 4 - (y - 1901) / 100 + (y - 1601) / 400

/-- YearFromTime from the ECMAScript specification, on day numbers: the
calendar year that day `z` falls in.  Computed by an affine guess
followed by at most two corrections; `yearOfDay_spec` proves the
characterising property. -/
def yearOfDay (z : ℤ) : ℤ :=
  let g := 400 * z / 146097 + 1970
  if z < dayFromYear g then g - 1
  else if z < dayFromYear (g + 1) then g
  else g + 1

/-- Gregorian leap-year test (ECMAScript DaysInYear). -/
def isLeapYear (y : ℤ) : Bool :=
  (y % 4 = 0 ∧ y % 100 ≠ 0) ∨ y % 400 = 0

/-- Days in year `y` strictly before month `m` (months are 1-based). -/
def daysBeforeMonth (y : ℤ) (m : ℤ) : ℤ :=
  let base : ℤ :=
    match m with
    | 1 => 0 | 2 => 31 | 3 => 59 | 4 => 90 | 5 => 120 | 6 => 151
    | 7 => 181 | 8 => 212 | 9 => 243 | 10 => 273 | 11 => 304 | 12 => 334
    | _ => 0
  if 3 ≤ m ∧ isLeapYear y then base + 1 else base

/-- MakeDay: the day number of the calendar date `y-m-d` (month and day
1-based, assumed in range). -/
def mkDate (y m d : ℤ) : ℤ := dayFromYear y + daysBeforeMonth y m + d - 1

/-- Day of week of day number `z`, as returned by `Date.prototype.getDay`:
0 = Sunday, ..., 6 = Saturday.  Day 0 (1970-01-01) was a Thursday. -/
def dow (z : ℤ) : ℤ := (z + 4) % 7

/-! ### Embedding of the date utilities of `script.js` -/

/-- Embedding of `getMondayOfWeek` (script.js lines 28-33): shift the
date back to the Monday of its Monday-to-Sunday week, a Sunday moving
six days back. -/
def getMondayOfWeek (z : ℤ) : ℤ :=
  z + (if dow z = 0 then -6 else 1 - dow z)

/-- Embedding of `getWeekNumber` (script.js lines 51-59): shift to the
Thursday of the Monday-based week, then count weeks from January 1 of
the year of that Thursday.  `Math.ceil((diff/86400000 + 1) / 7)` on
exact day differences equals `(diff + 7) / 7` in floor division. -/
def getWeekNumber (z : ℤ) : ℤ :=
  let dayNum := if dow z = 0 then 7 else dow z
  let t := z + 4 - dayNum
  (t - dayFromYear (yearOfDay t) + 7) / 7

/-- JavaScript decimal rendering of an integer (`String(n)`, template
literals). -/
def jsNumToString (n : ℤ) : String :=
  if n < 0 then "-" ++ Nat.repr (-n).toNat else Nat.repr n.toNat

/-- Embedding of `String(weekNum).padStart(2, "0")`. -/
def pad2 (n : ℤ) : String :=
  let s := jsNumToString n
  String.mk (List.replicate (2 - s.length) '0' ++ s.data)

/-- Embedding of `getWeekIdentifier` (script.js lines 61-65): the year
printed is the calendar year of the Monday of the week, the week number
is the ISO week number of that Monday. -/
def getWeekIdentifier (z : ℤ) : String :=
  jsNumToString (yearOfDay (getMondayOfWeek z)) ++ "-W" ++ pad2 (getWeekNumber (getMondayOfWeek z))

/-- The ISO week-numbering year of the week containing day `z`, stated
from the words of the spec: shift the date to the Thursday of its
Monday-based week (day number `4 - dayNum` away, where Monday = 1, ...,
Sunday = 7) and take the calendar year of that Thursday. -/
def isoWeekYear (z : ℤ) : ℤ :=
  yearOfDay (z + 4 - (if dow z = 0 then 7 else dow z))

/-- Decides whether a string matches the anchored regular expression
pattern of the spec for week identifiers: four decimal digits, a dash,
a capital W, two decimal digits. -/
def isWeekIdPattern (s : String) : Bool :=
  match s.data with
  | [a, b, c, d, e, f, g, k] =>
      a.isDigit && b.isDigit && c.isDigit && d.isDigit &&
      (e = '-') && (f = 'W') && g.isDigit && k.isDigit
  | _ => false

/-! ### Calendar lemmas -/

/-- Characterisation of `yearOfDay`: day `z` lies between January 1 of
its computed year and January 1 of the following year. -/
theorem yearOfDay_spec (z : ℤ) :
    dayFromYear (yearOfDay z) ≤ z ∧ z < dayFromYear (yearOfDay z + 1) := by
  unfold yearOfDay
  dsimp only
  split_ifs with h1 h2 <;> (simp only [sub_add_cancel] at * ; unfold dayFromYear at * ; omega)

/-- A calendar year spans at most 366 days. -/
theorem yearLen (y : ℤ) : dayFromYear (y + 1) ≤ dayFromYear y + 366 := by
  unfold dayFromYear
  omega

/-- The day returned by `getMondayOfWeek` is a Monday lying at most six
days before the input. -/
theorem getMondayOfWeek_bounds (z : ℤ) :
    dow (getMondayOfWeek z) = 1 ∧ getMondayOfWeek z ≤ z ∧ z ≤ getMondayOfWeek z + 6 := by
  unfold getMondayOfWeek dow
  split_ifs <;> omega

/-- Every day of the Monday-to-Sunday span of `z` is mapped by
`getMondayOfWeek` to the same Monday. -/
theorem getMondayOfWeek_stable (z e : ℤ)
    (h1 : getMondayOfWeek z ≤ e) (h2 : e ≤ getMondayOfWeek z + 6) :
    getMondayOfWeek e = getMondayOfWeek z := by
  unfold getMondayOfWeek dow at *
  split_ifs at * <;> omega

/-- The week number computed by `getWeekNumber` always lies between 1
and 53. -/
theorem getWeekNumber_bounds (z : ℤ) : 1 ≤ getWeekNumber z ∧ getWeekNumber z ≤ 53 := by
  unfold getWeekNumber
  dsimp only
  have h1 := yearOfDay_spec (z + 4 - (if dow z = 0 then 7 else dow z))
  have h2 := yearLen (yearOfDay (z + 4 - (if dow z = 0 then 7 else dow z)))
  omega

/-! ### Decimal digit lemmas

`Nat.repr` is bridged to the structurally recursive `decRepr`, from
which the length and digit facts needed for the week-identifier pattern
follow. -/

/-- Decimal digit list of a natural number, most significant first. -/
def decRepr (n : ℕ) : List Char :=
  if _h : n < 10 then [Nat.digitChar n]
  else decRepr (n / 10) ++ [Nat.digitChar (n % 10)]
decreasing_by exact Nat.div_lt_self (by omega) (by omega)

/-- The fuel-based core printer of `Nat.repr` agrees with `decRepr`. -/
theorem toDigitsCore_eq (fuel : ℕ) : ∀ (n : ℕ) (acc : List Char), n < fuel →
    Nat.toDigitsCore 10 fuel n acc = decRepr n ++ acc := by
  induction fuel with
  | zero => intro n acc h; omega
  | succ f ih =>
    intro n acc h
    unfold Nat.toDigitsCore
    dsimp only
    by_cases h10 : n / 10 = 0
    · rw [if_pos h10]
      rw [decRepr, dif_pos (by omega : n < 10)]
      rw [Nat.mod_eq_of_lt (by omega : n < 10)]
      simp
    · rw [if_neg h10]
      rw [ih (n / 10) _ (by omega)]
      have hn : ¬ n < 10 := by omega
      conv_rhs => rw [decRepr, dif_neg hn]
      simp

/-- The characters of `Nat.repr n` are exactly `decRepr n`. -/
theorem repr_data_eq (n : ℕ) : (Nat.repr n).data = decRepr n := by
  unfold Nat.repr Nat.toDigits
  rw [toDigitsCore_eq (n + 1) n [] (Nat.lt_succ_self n)]
  simp [List.asString]

/-- The digit character of a value below ten is a decimal digit. -/
theorem digitChar_isDigit {n : ℕ} (h : n < 10) : (Nat.digitChar n).isDigit = true := by
  interval_cases n <;> decide

/-- Every character produced by `decRepr` is a decimal digit. -/
theorem decRepr_digits (n : ℕ) : ∀ c ∈ decRepr n, c.isDigit = true := by
  induction n using Nat.strong_induction_on with
  | _ n ih =>
    rw [decRepr]
    by_cases h : n < 10
    · rw [dif_pos h]
      intro c hc
      simp at hc
      subst hc
      exact digitChar_isDigit h
    · rw [dif_neg h]
      intro c hc
      rcases List.mem_append.mp hc with h1 | h2
      · exact ih (n / 10) (Nat.div_lt_self (by omega) (by omega)) c h1
      · simp at h2
        subst h2
        exact digitChar_isDigit (Nat.mod_lt _ (by omega))

/-- One-digit numbers print as a single digit character. -/
theorem decRepr_one (n : ℕ) (h : n < 10) : decRepr n = [Nat.digitChar n] := by
  rw [decRepr, dif_pos h]

/-- Two-digit numbers print as two digit characters. -/
theorem decRepr_two (n : ℕ) (h1 : 10 ≤ n) (h2 : n < 100) :
    decRepr n = [Nat.digitChar (n / 10), Nat.digitChar (n % 10)] := by
  rw [decRepr, dif_neg (by omega : ¬ n < 10), decRepr_one _ (by omega)]
  rfl

/-- Four-digit numbers print as four digit characters. -/
theorem decRepr_four (n : ℕ) (h1 : 1000 ≤ n) (h2 : n < 10000) :
    decRepr n = [Nat.digitChar (n / 1000), Nat.digitChar (n / 100 % 10),
                 Nat.digitChar (n / 10 % 10), Nat.digitChar (n % 10)] := by
  rw [decRepr, dif_neg (by omega : ¬ n < 10)]
  rw [decRepr, dif_neg (by omega : ¬ n / 10 < 10)]
  rw [decRepr_two (n / 10 / 10) (by omega) (by omega)]
  have e1 : n / 10 / 10 / 10 = n / 1000 := by omega
  have e2 : n / 10 / 10 % 10 = n / 100 % 10 := by omega
  rw [e1, e2]
  rfl

/-- Printing a nonnegative integer delegates to `decRepr`. -/
theorem jsNumToString_nonneg (n : ℤ) (h : 0 ≤ n) :
    (jsNumToString n).data = decRepr n.toNat := by
  unfold jsNumToString
  rw [if_neg (by omega)]
  exact repr_data_eq n.toNat

/-- For week numbers between 1 and 99, `pad2` yields exactly two digit
characters. -/
theorem pad2_digits (w : ℤ) (h1 : 1 ≤ w) (h2 : w ≤ 99) :
    ∃ e f : Char, (pad2 w).data = [e, f] ∧ e.isDigit = true ∧ f.isDigit = true := by
  unfold pad2
  dsimp only
  by_cases hw : w < 10
  · have hd : (jsNumToString w).data = [Nat.digitChar w.toNat] := by
      rw [jsNumToString_nonneg w (by omega), decRepr_one _ (by omega)]
    have hl : (jsNumToString w).length = 1 := by
      rw [String.length, hd]
      rfl
    refine ⟨'0', Nat.digitChar w.toNat, ?_, by decide, digitChar_isDigit (by omega)⟩
    rw [hl, hd]
    rfl
  · have hd : (jsNumToString w).data
        = [Nat.digitChar (w.toNat / 10), Nat.digitChar (w.toNat % 10)] := by
      rw [jsNumToString_nonneg w (by omega), decRepr_two _ (by omega) (by omega)]
    have hl : (jsNumToString w).length = 2 := by
      rw [String.length, hd]
      rfl
    refine ⟨Nat.digitChar (w.toNat / 10), Nat.digitChar (w.toNat % 10), ?_,
      digitChar_isDigit (by omega), digitChar_isDigit (by omega)⟩
    rw [hl, hd]
    rfl

/-- A week-identifier string built from a four-digit year and a week
number between 1 and 99 matches the spec pattern. -/
theorem weekIdString_pattern (y w : ℤ) (hy1 : 1000 ≤ y) (hy2 : y ≤ 9999)
    (hw1 : 1 ≤ w) (hw2 : w ≤ 99) :
    isWeekIdPattern (jsNumToString y ++ "-W" ++ pad2 w) = true := by
  obtain ⟨e, f, hef, he, hf⟩ := pad2_digits w hw1 hw2
  have hy : (jsNumToString y).data
      = [Nat.digitChar (y.toNat / 1000), Nat.digitChar (y.toNat / 100 % 10),
         Nat.digitChar (y.toNat / 10 % 10), Nat.digitChar (y.toNat % 10)] := by
    rw [jsNumToString_nonneg y (by omega), decRepr_four _ (by omega) (by omega)]
  unfold isWeekIdPattern
  rw [String.data_append, String.data_append, hy, hef]
  dsimp only
  simp [he, hf,
    digitChar_isDigit (show y.toNat / 1000 < 10 by omega),
    digitChar_isDigit (show y.toNat / 100 % 10 < 10 by omega),
    digitChar_isDigit (show y.toNat / 10 % 10 < 10 by omega),
    digitChar_isDigit (show y.toNat % 10 < 10 by omega)]

/-! ### Claims C1, C2, C3: week identifiers -/

/-- Claim C1 (code bug evidence): the claim states that the year
component of `getWeekIdentifier d` is the ISO week-numbering year (the
calendar year of the Thursday of the Monday-based week of `d`).  The
code instead prints the calendar year of the Monday.  For 2024-12-30
(a Monday whose Thursday falls on 2025-01-02) the code yields
`2024-W01` although the ISO week-numbering year is 2025 — and that
string collides with the identifier of the week of 2024-01-01, so two
distinct weeks share one callsheet bucket, defeating the sole purpose
of the identifier. -/
theorem claim_c1_code_bug_eval :
    getWeekIdentifier (mkDate 2024 12 30) = "2024-W01" ∧
    isoWeekYear (mkDate 2024 12 30) = 2025 ∧
    getWeekIdentifier (mkDate 2024 1 1) = "2024-W01" ∧
    isoWeekYear (mkDate 2024 1 1) = 2024 ∧
    mkDate 2024 12 30 ≠ mkDate 2024 1 1 := by
  decide

/-- Claim C2, counterexample: the claim quantifies over every valid
date, but for dates whose week-Monday falls in a year below 1000 the
year component prints with fewer than four digits, so the identifier
does not match the pattern.  Witnessed at 0999-06-15, whose identifier
is `999-W24`. -/
theorem claim_c2_counterexample :
    isWeekIdPattern (getWeekIdentifier (mkDate 999 6 15)) = false := by
  decide

/-- Claim C2 (amended): when the calendar year of the Monday of the week
of `d` has four digits (1000 to 9999) the identifier matches
`^\d\x7b4\x7d-W\d\x7b2\x7d$`; and for every date, without restriction,
the identifier is the same string for every date of the Monday-to-Sunday
span of `d`. -/
theorem claim_c2_amended (z : ℤ) :
    (1000 ≤ yearOfDay (getMondayOfWeek z) → yearOfDay (getMondayOfWeek z) ≤ 9999 →
      isWeekIdPattern (getWeekIdentifier z) = true) ∧
    ∀ e : ℤ, getMondayOfWeek z ≤ e → e ≤ getMondayOfWeek z + 6 →
      getWeekIdentifier e = getWeekIdentifier z := by
  constructor
  · intro hy1 hy2
    unfold getWeekIdentifier
    exact weekIdString_pattern _ _ hy1 hy2 (getWeekNumber_bounds _).1
      (le_trans (getWeekNumber_bounds _).2 (by omega))
  · intro e h1 h2
    unfold getWeekIdentifier
    rw [getMondayOfWeek_stable z e h1 h2]

/-- Claim C2 witness: the amended theorem applied to 2024-03-07 (a
Thursday; its Monday is 2024-03-04) and to 2024-03-09 of the same
span. -/
theorem claim_c2_witness :
    isWeekIdPattern (getWeekIdentifier (mkDate 2024 3 7)) = true ∧
    getWeekIdentifier (mkDate 2024 3 9) = getWeekIdentifier (mkDate 2024 3 7) := by
  have h := claim_c2_amended (mkDate 2024 3 7)
  exact ⟨h.1 (by decide) (by decide), h.2 (mkDate 2024 3 9) (by decide) (by decide)⟩

/-- Claim C3: 2024-01-01 is a Monday and its identifier is `2024-W01`;
2023-01-01 is a Sunday and its identifier is `2022-W52`. -/
theorem claim_c3 :
    dow (mkDate 2024 1 1) = 1 ∧
    getWeekIdentifier (mkDate 2024 1 1) = "2024-W01" ∧
    dow (mkDate 2023 1 1) = 0 ∧
    getWeekIdentifier (mkDate 2023 1 1) = "2022-W52" := by
  decide

/-! ### Customer model and `normalizeCustomer` -/

/-- Entry of the `addresses` list of a customer record. -/
structure Address where
  label : String
  street : String
  city : String
  state : String
  zip : String
  country : String
deriving DecidableEq, Repr

/-- Customer record as read from the `customerDatabase` storage key.
The legacy top-level address fields may be absent (`none`); a missing
or non-array `addresses` field is `none`, an array is `some`. -/
structure Customer where
  name : String
  street : Option String := none
  city : Option String := none
  state : Option String := none
  zip : Option String := none
  country : Option String := none
  addresses : Option (List Address) := none
deriving DecidableEq, Repr

/-- The one-element address list `normalizeCustomer` synthesises from
the top-level legacy fields (`customer.street || ""` yields the empty
string when the field is absent). -/
def primaryAddress (c : Customer) : Address :=
  { label := "Primary", street := c.street.getD "", city := c.city.getD "",
    state := c.state.getD "", zip := c.zip.getD "", country := c.country.getD "" }

/-- Embedding of `normalizeCustomer` (script.js lines 101-121). -/
def normalizeCustomer : Option Customer → Option Customer
  | none => none
  | some c =>
    match c.addresses with
    | some (_ :: _) => some c
    | _ => some { c with addresses := some [primaryAddress c] }

/-- Claim C4: `normalizeCustomer` maps `null` to `null`, keeps a record
with a non-empty `addresses` array unchanged, and otherwise extends the
record with a one-element Primary address list copied from the legacy
top-level fields, missing fields becoming empty strings. -/
theorem claim_c4 :
    normalizeCustomer none = none ∧
    (∀ (c : Customer) (a : Address) (rest : List Address),
      c.addresses = some (a :: rest) → normalizeCustomer (some c) = some c) ∧
    (∀ c : Customer, c.addresses = none ∨ c.addresses = some [] →
      normalizeCustomer (some c) = some { c with addresses := some [
        { label := "Primary", street := c.street.getD "", city := c.city.getD "",
          state := c.state.getD "", zip := c.zip.getD "",
          country := c.country.getD "" }] }) := by
  refine ⟨rfl, ?_, ?_⟩
  · intro c a rest h
    simp only [normalizeCustomer]
    rw [h]
  · intro c h
    simp only [normalizeCustomer]
    rcases h with h | h <;> rw [h] <;> rfl

/-- Claim C4 witness: the three cases applied to concrete records. -/
theorem claim_c4_witness :
    normalizeCustomer (some { name := "A", addresses := some [
        { label := "Home", street := "s", city := "c", state := "st",
          zip := "z", country := "co" }] })
      = some { name := "A", addresses := some [
        { label := "Home", street := "s", city := "c", state := "st",
          zip := "z", country := "co" }] } ∧
    normalizeCustomer (some { name := "B", street := some "5 High St" })
      = some { name := "B", street := some "5 High St", addresses := some [
        { label := "Primary", street := "5 High St", city := "", state := "",
          zip := "", country := "" }] } := by
  constructor
  · exact claim_c4.2.1 _ _ _ rfl
  · exact (claim_c4.2.2 _ (Or.inl rfl)).trans (by decide)

/-- Claim C5: `normalizeCustomer` is idempotent on every input,
including `null`. -/
theorem claim_c5 (c : Option Customer) :
    normalizeCustomer (normalizeCustomer c) = normalizeCustomer c := by
  match c with
  | none => rfl
  | some c =>
    match h : c.addresses with
    | some (a :: rest) => simp only [normalizeCustomer, h]
    | none => simp only [normalizeCustomer, h]
    | some [] => simp only [normalizeCustomer, h]

/-! ### `saveCustomer` (script.js lines 334-348)

The function reads the stored list, replaces the first record whose
`name` equals the argument (via `findIndex`), otherwise appends, and
writes the list back.  It is modelled as a pure transformation of the
stored list. -/

/-- Embedding of `saveCustomer`: upsert into the stored customer list. -/
def saveCustomer (customers : List Customer) (customer : Customer) : List Customer :=
  match customers.findIdx? (fun c => c.name = customer.name) with
  | some i => customers.set i customer
  | none => customers ++ [customer]

/-- Saving into an empty list appends the record. -/
theorem saveCustomer_nil (c : Customer) : saveCustomer [] c = [c] := rfl

/-- Unfolding equation of `saveCustomer` on a cons cell. -/
theorem saveCustomer_cons (x : Customer) (rest : List Customer) (c : Customer) :
    saveCustomer (x :: rest) c =
      if x.name = c.name then c :: rest else x :: saveCustomer rest c := by
  unfold saveCustomer
  rw [List.findIdx?_cons]
  by_cases h : x.name = c.name
  · simp [h]
  · simp only [h, decide_False, if_neg, cond_false, if_false]
    cases hf : rest.findIdx? (fun y => y.name = c.name) with
    | none => simp [hf]
    | some i => simp [hf]

/-- After a save into a duplicate-free list, the records carrying the
saved name are exactly the one saved record. -/
theorem saveCustomer_filter_eq (store : List Customer) (c : Customer)
    (hnd : (store.map Customer.name).Nodup) :
    (saveCustomer store c).filter (fun x => x.name = c.name) = [c] := by
  induction store with
  | nil => simp [saveCustomer_nil]
  | cons x rest ih =>
    rw [saveCustomer_cons]
    simp only [List.map_cons, List.nodup_cons] at hnd
    by_cases h : x.name = c.name
    · rw [if_pos h]
      have hrest : rest.filter (fun y => y.name = c.name) = [] := by
        rw [List.filter_eq_nil_iff]
        intro y hy
        have : y.name ∈ rest.map Customer.name := List.mem_map_of_mem _ hy
        simp only [decide_eq_true_eq]
        intro hYc
        exact hnd.1 (by rw [h, ← hYc]; exact this)
      simp [hrest]
    · rw [if_neg h]
      rw [List.filter_cons_of_neg (by simp [h])]
      exact ih hnd.2

/-- Every record in the saved list carries either a pre-existing name or
the saved name. -/
theorem saveCustomer_mem_name (store : List Customer) (c : Customer) :
    ∀ y ∈ saveCustomer store c, y.name ∈ store.map Customer.name ∨ y.name = c.name := by
  induction store with
  | nil => intro y hy; simp [saveCustomer_nil] at hy; simp [hy]
  | cons x rest ih =>
    rw [saveCustomer_cons]
    by_cases h : x.name = c.name
    · rw [if_pos h]
      intro y hy
      rcases List.mem_cons.mp hy with h1 | h2
      · right; rw [h1]
      · left; simp [List.mem_map]; exact Or.inr ⟨y, h2, rfl⟩
    · rw [if_neg h]
      intro y hy
      rcases List.mem_cons.mp hy with h1 | h2
      · left; simp [h1]
      · rcases ih y h2 with h3 | h3
        · left; simp only [List.map_cons, List.mem_cons]; exact Or.inr h3
        · right; exact h3

/-- Saving preserves freedom from duplicate names. -/
theorem saveCustomer_nodup (store : List Customer) (c : Customer)
    (hnd : (store.map Customer.name).Nodup) :
    ((saveCustomer store c).map Customer.name).Nodup := by
  induction store with
  | nil => simp [saveCustomer_nil]
  | cons x rest ih =>
    rw [saveCustomer_cons]
    simp only [List.map_cons, List.nodup_cons] at hnd
    by_cases h : x.name = c.name
    · rw [if_pos h]
      simp only [List.map_cons, List.nodup_cons]
      exact ⟨by rw [← h]; exact hnd.1, hnd.2⟩
    · rw [if_neg h]
      simp only [List.map_cons, List.nodup_cons]
      refine ⟨?_, ih hnd.2⟩
      intro hmem
      rcases List.mem_map.mp hmem with ⟨y, hy, hyname⟩
      rcases saveCustomer_mem_name rest c y hy with h3 | h3
      · rw [hyname] at h3; exact hnd.1 h3
      · rw [hyname] at h3; exact h (h3.symm ▸ rfl)

/-- When no stored record carries the name, the save appends. -/
theorem saveCustomer_absent (store : List Customer) (c : Customer)
    (h : ∀ x ∈ store, x.name ≠ c.name) :
    saveCustomer store c = store ++ [c] := by
  induction store with
  | nil => rfl
  | cons x rest ih =>
    rw [saveCustomer_cons, if_neg (h x (List.mem_cons_self x rest))]
    rw [ih (fun y hy => h y (List.mem_cons_of_mem x hy))]
    rfl

/-- Records whose name differs from the saved name are untouched, in
their original relative order. -/
theorem saveCustomer_filter_ne (store : List Customer) (c : Customer) :
    (saveCustomer store c).filter (fun x => ¬ x.name = c.name)
      = store.filter (fun x => ¬ x.name = c.name) := by
  induction store with
  | nil => simp [saveCustomer_nil]
  | cons x rest ih =>
    rw [saveCustomer_cons]
    by_cases h : x.name = c.name
    · rw [if_pos h]
      rw [List.filter_cons_of_neg (by simp), List.filter_cons_of_neg (by simp [h])]
    · rw [if_neg h]
      rw [List.filter_cons_of_pos (by simp [h]), List.filter_cons_of_pos (by simp [h])]
      rw [ih]

/-- A save whose name is already present keeps the list length. -/
theorem saveCustomer_length_replace (store : List Customer) (c : Customer)
    (h : ∃ x ∈ store, x.name = c.name) :
    (saveCustomer store c).length = store.length := by
  induction store with
  | nil => simp at h
  | cons x rest ih =>
    rw [saveCustomer_cons]
    by_cases hx : x.name = c.name
    · rw [if_pos hx]; rfl
    · rw [if_neg hx]
      simp only [List.length_cons]
      rcases h with ⟨y, hy, hyn⟩
      rcases List.mem_cons.mp hy with h1 | h2
      · exact absurd (h1 ▸ hyn) hx
      · rw [ih ⟨y, h2, hyn⟩]

/-! ### Claims C8 and C10: upsert behaviour of `saveCustomer` -/

/-- Claim C8, counterexample: the claim as stated quantifies over every
stored list, but when the store already holds two records named `X`,
calling `saveCustomer` twice (same name, different fields) replaces only
the first match, leaving two records for that name rather than exactly
one. -/
theorem claim_c8_counterexample :
    ((saveCustomer (saveCustomer
        [{ name := "X", street := some "1" }, { name := "X", street := some "2" }]
        { name := "X", street := some "3" })
        { name := "X", street := some "4" }).filter
      (fun c => c.name = "X")).length = 2 := by
  decide

/-- Claim C8 (amended): provided the stored list holds at most one
record per name — an invariant `saveCustomer` itself preserves, as the
second conjunct shows — calling `saveCustomer` twice with the same name
leaves exactly one stored record for that name, holding the second
call record; a save whose name is absent appends the record, and a save
whose name is present replaces the first match in place. -/
theorem claim_c8_amended (store : List Customer) (c1 c2 : Customer)
    (hnd : (store.map Customer.name).Nodup) (_hname : c1.name = c2.name) :
    (saveCustomer (saveCustomer store c1) c2).filter (fun x => x.name = c2.name) = [c2] ∧
    ((saveCustomer (saveCustomer store c1) c2).map Customer.name).Nodup ∧
    ((∀ x ∈ store, x.name ≠ c1.name) → saveCustomer store c1 = store ++ [c1]) ∧
    (∀ i, store.findIdx? (fun x => x.name = c1.name) = some i →
      saveCustomer store c1 = store.set i c1) := by
  have h1 := saveCustomer_nodup store c1 hnd
  refine ⟨saveCustomer_filter_eq _ c2 h1, saveCustomer_nodup _ c2 h1,
    saveCustomer_absent store c1, ?_⟩
  intro i hi
  unfold saveCustomer
  rw [hi]

/-- Claim C8 witness: two saves of name `A` into a duplicate-free store
leave exactly the second record for `A`. -/
theorem claim_c8_witness :
    (saveCustomer (saveCustomer
        [{ name := "A", street := some "1" }, { name := "B", street := some "2" }]
        { name := "A", street := some "3" })
        { name := "A", street := some "4" }).filter
      (fun c => c.name = "A") = [{ name := "A", street := some "4" }] := by
  have h := claim_c8_amended
    [{ name := "A", street := some "1" }, { name := "B", street := some "2" }]
    { name := "A", street := some "3" } { name := "A", street := some "4" }
    (by decide) (by decide)
  exact h.1

/-- Claim C10: `saveCustomer` leaves every record of a different name
unchanged and in its original relative order; when no record carries the
saved name the list is extended by the record at its end; when one does,
the length is unchanged. -/
theorem claim_c10 (store : List Customer) (c : Customer) :
    (saveCustomer store c).filter (fun x => ¬ x.name = c.name)
      = store.filter (fun x => ¬ x.name = c.name) ∧
    ((∀ x ∈ store, x.name ≠ c.name) → saveCustomer store c = store ++ [c]) ∧
    ((∃ x ∈ store, x.name = c.name) → (saveCustomer store c).length = store.length) :=
  ⟨saveCustomer_filter_ne store c, saveCustomer_absent store c,
    saveCustomer_length_replace store c⟩

/-- Claim C10 witness: frame property and append case on concrete
stores. -/
theorem claim_c10_witness :
    (saveCustomer [{ name := "A", street := some "1" }, { name := "B", street := some "2" }]
        { name := "A", street := some "3" }).filter (fun x => ¬ x.name = "A")
      = [{ name := "B", street := some "2" }] ∧
    saveCustomer [{ name := "B", street := some "2" }] { name := "A", street := some "3" }
      = [{ name := "B", street := some "2" }, { name := "A", street := some "3" }] := by
  constructor
  · exact ((claim_c10 [{ name := "A", street := some "1" }, { name := "B", street := some "2" }]
      { name := "A", street := some "3" }).1).trans (by decide)
  · exact (claim_c10 [{ name := "B", street := some "2" }]
      { name := "A", street := some "3" }).2.1 (by decide)

/-! ### Callsheet repository (script.js lines 383-417)

The `callsheets` storage key holds an object mapping week identifiers
to entry lists; it is modelled as an association list with the object
read `callsheets[weekId] || []` as `find?` (JavaScript object keys are
unique, but no lemma below relies on that) and the object write
`callsheets[weekId] = entries` as replace-first-or-append.  Entries are
opaque to this layer, hence the type parameter.  `saveCallsheetForWeek`
returns `true` in the source when the storage write succeeds; the model
keeps the transformed store and the success flag. -/

/-- Embedding of `getCallsheetForWeek`. -/
def getCallsheetForWeek {α : Type} (cs : List (String × List α)) (w : String) : List α :=
  match cs.find? (fun kv => kv.1 = w) with
  | some kv => kv.2
  | none => []

/-- Embedding of `saveCallsheetForWeek` (state part). -/
def saveCallsheetForWeek {α : Type} (cs : List (String × List α)) (w : String)
    (entries : List α) : List (String × List α) :=
  match cs.findIdx? (fun kv => kv.1 = w) with
  | some i => cs.set i (w, entries)
  | none => cs ++ [(w, entries)]

/-- Embedding of `removeCallsheetEntry` (script.js lines 410-417):
returns the boolean result together with the transformed store. -/
def removeCallsheetEntry {α : Type} (cs : List (String × List α)) (w : String)
    (idx : ℤ) : Bool × List (String × List α) :=
  let entries := getCallsheetForWeek cs w
  if 0 ≤ idx ∧ idx < entries.length then
    (true, saveCallsheetForWeek cs w (entries.eraseIdx idx.toNat))
  else (false, cs)

/-- Unfolding equation of `getCallsheetForWeek` on a cons cell. -/
theorem getCallsheetForWeek_cons {α : Type} (k : String) (v : List α)
    (rest : List (String × List α)) (w : String) :
    getCallsheetForWeek ((k, v) :: rest) w
      = if k = w then v else getCallsheetForWeek rest w := by
  unfold getCallsheetForWeek
  rw [List.find?_cons]
  by_cases h : k = w
  · simp [h]
  · simp [h]

/-- Unfolding equation of `saveCallsheetForWeek` on a cons cell. -/
theorem saveCallsheetForWeek_cons {α : Type} (k : String) (v : List α)
    (rest : List (String × List α)) (w : String) (es : List α) :
    saveCallsheetForWeek ((k, v) :: rest) w es
      = if k = w then (w, es) :: rest else (k, v) :: saveCallsheetForWeek rest w es := by
  unfold saveCallsheetForWeek
  rw [List.findIdx?_cons]
  by_cases h : k = w
  · simp [h]
  · simp only [h, decide_False, cond_false, if_false]
    cases hf : rest.findIdx? (fun kv => kv.1 = w) with
    | none => simp [hf]
    | some i => simp [hf]

/-- Reading a week after writing it yields exactly the written list. -/
theorem get_save_callsheet {α : Type} (cs : List (String × List α)) (w : String)
    (es : List α) :
    getCallsheetForWeek (saveCallsheetForWeek cs w es) w = es := by
  induction cs with
  | nil =>
    show getCallsheetForWeek [(w, es)] w = es
    rw [getCallsheetForWeek_cons, if_pos rfl]
  | cons kv rest ih =>
    rw [show kv = (kv.1, kv.2) from rfl, saveCallsheetForWeek_cons]
    by_cases h : kv.1 = w
    · rw [if_pos h, getCallsheetForWeek_cons, if_pos rfl]
    · rw [if_neg h, getCallsheetForWeek_cons, if_neg h]
      exact ih

/-- Claim C9: `removeCallsheetEntry` returns `false` and leaves the
whole store (hence the week entry list) unchanged when the index is out
of bounds; for an in-bounds index it returns `true`, removes exactly the
entry at that index, and the week list shrinks by one. -/
theorem claim_c9 {α : Type} (cs : List (String × List α)) (w : String) (idx : ℤ) :
    ((idx < 0 ∨ ((getCallsheetForWeek cs w).length : ℤ) ≤ idx) →
      removeCallsheetEntry cs w idx = (false, cs)) ∧
    (0 ≤ idx → idx < ((getCallsheetForWeek cs w).length : ℤ) →
      (removeCallsheetEntry cs w idx).1 = true ∧
      getCallsheetForWeek (removeCallsheetEntry cs w idx).2 w
        = (getCallsheetForWeek cs w).eraseIdx idx.toNat ∧
      (getCallsheetForWeek (removeCallsheetEntry cs w idx).2 w).length
        = (getCallsheetForWeek cs w).length - 1) := by
  constructor
  · intro h
    unfold removeCallsheetEntry
    rw [if_neg (by omega)]
  · intro h1 h2
    unfold removeCallsheetEntry
    rw [if_pos (by omega)]
    refine ⟨rfl, ?_, ?_⟩
    · exact get_save_callsheet cs w _
    · rw [get_save_callsheet cs w _]
      rw [List.length_eraseIdx_of_lt (by omega)]

/-- Claim C9 witness: out-of-bounds index 5 is rejected without change,
in-bounds index 1 removes the middle entry of a three-entry week. -/
theorem claim_c9_witness :
    removeCallsheetEntry [(("2024-W01" : String), ["a", "b", "c"])] "2024-W01" 5
      = (false, [("2024-W01", ["a", "b", "c"])]) ∧
    (removeCallsheetEntry [(("2024-W01" : String), ["a", "b", "c"])] "2024-W01" 1).1 = true ∧
    getCallsheetForWeek
      (removeCallsheetEntry [(("2024-W01" : String), ["a", "b", "c"])] "2024-W01" 1).2
      "2024-W01" = ["a", "c"] := by
  have hoob := (claim_c9 [(("2024-W01" : String), ["a", "b", "c"])] "2024-W01" 5).1
  have hin := (claim_c9 [(("2024-W01" : String), ["a", "b", "c"])] "2024-W01" 1).2
    (by decide) (by decide)
  exact ⟨hoob (by decide), hin.1, hin.2.1.trans (by decide)⟩

/-! ### Product repository search (script.js lines 356-367) -/

/-- Product record of the `productDatabase` storage key. -/
structure Product where
  name : String
  code : String
deriving DecidableEq, Repr

/-- Model of `String.prototype.toLowerCase` on the character list of a
string (ASCII model). -/
def jsToLower (l : List Char) : List Char := l.map Char.toLower

/-- Model of `String.prototype.includes`: `pat` occurs as a contiguous
substring of `hay` (the empty pattern is always found, as in
JavaScript). -/
def containsSub (hay pat : List Char) : Bool :=
  if pat.isPrefixOf hay then true
  else
    match hay with
    | [] => false
    | _ :: t => containsSub t pat

/-- Embedding of `searchProducts`: empty query short-circuits to the
empty list, otherwise the catalog is filtered by a case-insensitive
substring match against the name, or against the code when the code is
truthy (non-empty). -/
def searchProducts (products : List Product) (query : String) : List Product :=
  if query = "" then []
  else
    let searchTerm := jsToLower query.data
    products.filter (fun p =>
      containsSub (jsToLower p.name.data) searchTerm ||
      (!(p.code = "") && containsSub (jsToLower p.code.data) searchTerm))

/-- The matching predicate in the words of the claim: the query occurs
case-insensitively in the name or in the code (no truthiness guard). -/
def specProductMatch (p : Product) (q : String) : Bool :=
  containsSub (jsToLower p.name.data) (jsToLower q.data) ||
  containsSub (jsToLower p.code.data) (jsToLower q.data)

/-- A non-empty pattern never occurs in the empty string. -/
theorem containsSub_nil (pat : List Char) (h : pat ≠ []) : containsSub [] pat = false := by
  unfold containsSub
  match pat with
  | [] => exact absurd rfl h
  | a :: t => rfl

/-- Claim C7: the empty query returns the empty list regardless of the
catalog, and a non-empty query returns exactly the stored products whose
name or code contains the query as a case-insensitive substring — the
truthiness guard on the code changes nothing, because a non-empty query
never occurs in an empty code. -/
theorem claim_c7 (products : List Product) (q : String) :
    searchProducts products "" = [] ∧
    (q ≠ "" → searchProducts products q
      = products.filter (fun p => specProductMatch p q)) := by
  constructor
  · rfl
  · intro hq
    unfold searchProducts
    rw [if_neg hq]
    dsimp only
    apply List.filter_congr
    intro p _
    unfold specProductMatch
    by_cases hc : p.code = ""
    · have hqd : q.data ≠ [] := by
        intro h
        exact hq (by cases q; simp_all)
      have : jsToLower q.data ≠ [] := by
        unfold jsToLower
        simp [hqd]
      have h0 : containsSub (jsToLower ("" : String).data) (jsToLower q.data) = false := by
        have he : jsToLower ("" : String).data = [] := rfl
        rw [he]
        exact containsSub_nil _ this
      rw [hc, h0]
      simp
    · simp [hc]

/-- Claim C7 witness: concrete catalog searched with the empty query, a
name fragment and a code fragment. -/
theorem claim_c7_witness :
    searchProducts [⟨"Widget", "W1"⟩, ⟨"Gadget", "G2"⟩] "" = [] ∧
    searchProducts [⟨"Widget", "W1"⟩, ⟨"Gadget", "G2"⟩] "wid" = [⟨"Widget", "W1"⟩] ∧
    searchProducts [⟨"Widget", "W1"⟩, ⟨"Gadget", "G2"⟩] "g2" = [⟨"Gadget", "G2"⟩] := by
  refine ⟨(claim_c7 [⟨"Widget", "W1"⟩, ⟨"Gadget", "G2"⟩] "x").1, ?_, ?_⟩
  · exact ((claim_c7 [⟨"Widget", "W1"⟩, ⟨"Gadget", "G2"⟩] "wid").2 (by decide)).trans (by decide)
  · exact ((claim_c7 [⟨"Widget", "W1"⟩, ⟨"Gadget", "G2"⟩] "g2").2 (by decide)).trans (by decide)

/-! ### Product display strings (script.js lines 11-24)

`formatProductWithCode` renders `name [code]` for a truthy (non-empty)
code and just the name otherwise.  `parseProductString` applies the
regular expression `^(.+?)\s*\[([^\]]+)\]$` and trims both groups, or
trims the whole string with an empty code when the expression does not
match.  The expression is compiled by hand into executable list
functions: `scanSplit` enumerates the candidate split points for the
lazy group `(.+?)` from the shortest prefix up (stopping at a line
terminator, which `.` cannot match), and `tailBracketMatch` decides
whether the remainder matches `\s*\[([^\]]+)\]$` — a maximal run of
whitespace, an opening bracket, and a non-empty bracket content free of
closing brackets that ends exactly at the final character. -/

/-- Characters matched by `\s` and removed by `trim`: the ECMAScript
WhiteSpace set (TAB, VT, FF, SP, NBSP, ZWNBSP and the Unicode
space-separator category) together with the LineTerminator set (LF, CR,
LS, PS). -/
def isWsChar (c : Char) : Bool :=
  c = ' ' ∨ c = '\t' ∨ c = '\n' ∨ c = '\r' ∨ c = '\x0b' ∨ c = '\x0c' ∨
  c = '\u00a0' ∨ c = '\ufeff' ∨ c = '\u1680' ∨
  ('\u2000' ≤ c ∧ c ≤ '\u200a') ∨
  c = '\u2028' ∨ c = '\u2029' ∨ c = '\u202f' ∨ c = '\u205f' ∨ c = '\u3000'

/-- JavaScript line terminators, which `.` does not match. -/
def isLineTerm (c : Char) : Bool :=
  c = '\n' ∨ c = '\r' ∨ c = '\u2028' ∨ c = '\u2029'

/-- Model of `String.prototype.trim` on character lists. -/
def jsTrim (l : List Char) : List Char :=
  ((l.dropWhile isWsChar).reverse.dropWhile isWsChar).reverse

/-- Decides whether `r` matches `\s*\[([^\]]+)\]$`, returning the
bracket content (group 2). -/
def tailBracketMatch (r : List Char) : Option (List Char) :=
  match r.dropWhile isWsChar with
  | [] => none
  | c :: t =>
    if c = '[' then
      match t.reverse with
      | [] => none
      | d :: rev =>
        if d = ']' ∧ rev ≠ [] ∧ ¬ (']' ∈ rev) then some rev.reverse else none
    else none

/-- Lazy search for the split of `^(.+?)\s*\[([^\]]+)\]$`: tries every
non-empty prefix as group 1, shortest first, and returns the pair of
group 1 and group 2 of the first match. -/
def scanSplit : List Char → List Char → Option (List Char × List Char)
  | _, [] => none
  | pre, c :: rest =>
    if isLineTerm c then none
    else
      match tailBracketMatch rest with
      | some code => some (pre ++ [c], code)
      | none => scanSplit (pre ++ [c]) rest

/-- Embedding of `parseProductString` (script.js lines 16-24). -/
def parseProductString (s : String) : Product :=
  if s = "" then ⟨"", ""⟩
  else
    match scanSplit [] s.data with
    | some (n, c) => ⟨String.mk (jsTrim n), String.mk (jsTrim c)⟩
    | none => ⟨String.mk (jsTrim s.data), ""⟩

/-- Embedding of `formatProductWithCode` (script.js lines 11-14). -/
def formatProductWithCode : Option Product → String
  | none => ""
  | some p => if p.code = "" then p.name else p.name ++ " [" ++ p.code ++ "]"

/-- Rebuilding a string from its character list is the identity. -/
theorem string_mk_data (s : String) : String.mk s.data = s := rfl

/-- A list stable under both trim passes is its own trim. -/
theorem jsTrim_of_stable (l : List Char)
    (h1 : l.dropWhile isWsChar = l) (h2 : l.reverse.dropWhile isWsChar = l.reverse) :
    jsTrim l = l := by
  unfold jsTrim
  rw [h1, h2, List.reverse_reverse]

/-- A list unchanged by `dropWhile` has a non-whitespace head. -/
theorem dropWhile_stable_head (l : List Char) (c : Char) (t : List Char)
    (h : l.dropWhile isWsChar = l) (hl : l = c :: t) : isWsChar c = false := by
  by_contra hc
  rw [hl, List.dropWhile_cons_of_pos (by simpa using hc)] at h
  have hlen := congrArg List.length h
  have hle := (List.dropWhile_sublist (l := t) isWsChar).length_le
  simp at hlen
  omega

/-- A list whose reverse is unchanged by `dropWhile` has a
non-whitespace last character. -/
theorem getLast_not_ws (l : List Char)
    (h2 : l.reverse.dropWhile isWsChar = l.reverse) :
    ∀ ch, l.getLast? = some ch → isWsChar ch = false := by
  intro ch hch
  rw [List.getLast?_eq_head?_reverse] at hch
  match hrev : l.reverse with
  | [] => rw [hrev] at hch; simp at hch
  | c :: t =>
    rw [hrev] at hch
    simp at hch
    subst hch
    exact dropWhile_stable_head l.reverse c t h2 hrev

/-- A remainder that is whitespace, an opening bracket, a clean
non-empty content and the final closing bracket matches, yielding the
content. -/
theorem tailMatch_code (r : List Char) (code : List Char) (hc1 : code ≠ []) (hc2 : ¬ (']' ∈ code))
    (hr : r.dropWhile isWsChar = '[' :: (code ++ [']'])) : tailBracketMatch r = some code := by
  unfold tailBracketMatch
  rw [hr]
  dsimp only
  rw [if_pos rfl]
  have hrev : (code ++ [']']).reverse = ']' :: code.reverse := by simp
  rw [hrev]
  dsimp only
  rw [if_pos ⟨rfl, by simpa using hc1, by simpa using hc2⟩]
  simp

/-- A remainder whose first non-whitespace character is not an opening
bracket does not match, wherever it is cut off. -/
theorem tailMatch_fail (suf other : List Char)
    (h1 : suf.dropWhile isWsChar ≠ [])
    (h2 : ∀ ch ∈ suf, ch ≠ '[') :
    tailBracketMatch (suf ++ other) = none := by
  unfold tailBracketMatch
  rw [List.dropWhile_append]
  rw [if_neg (by simpa using h1)]
  match hd : suf.dropWhile isWsChar with
  | [] => exact absurd hd h1
  | c :: t =>
    have hc : c ∈ suf := by
      have := List.dropWhile_sublist (l := suf) isWsChar
      exact this.subset (by rw [hd]; exact List.mem_cons_self c t)
    rw [List.cons_append]
    dsimp only
    rw [if_neg (h2 c hc)]

/-- The scan walks through a bracket-free name with a non-whitespace
last character and splits exactly at its end. -/
theorem scanSplit_name_step (code : List Char) (hc1 : code ≠ []) (hc2 : ¬ (']' ∈ code)) :
    ∀ (nm pre : List Char), nm ≠ [] → ('[' ∉ nm) →
      (∀ ch ∈ nm, isLineTerm ch = false) →
      (∀ ch, nm.getLast? = some ch → isWsChar ch = false) →
      scanSplit pre (nm ++ (' ' :: '[' :: (code ++ [']'])))
        = some (pre ++ nm, code) := by
  intro nm
  induction nm with
  | nil => intro pre h; exact absurd rfl h
  | cons c rest ih =>
    intro pre _ hnb hlt hlast
    rw [List.cons_append]
    show scanSplit pre (c :: (rest ++ (' ' :: '[' :: (code ++ [']'])))) = _
    unfold scanSplit
    rw [if_neg (by simpa using hlt c (List.mem_cons_self c rest))]
    by_cases hr : rest = []
    · subst hr
      rw [List.nil_append]
      rw [tailMatch_code _ code hc1 hc2 ?side]
      case side =>
        rw [List.dropWhile_cons_of_pos (by decide)]
        rw [List.dropWhile_cons_of_neg (by decide)]
    · have hlast2 : ∀ ch, rest.getLast? = some ch → isWsChar ch = false := by
        intro ch hch
        apply hlast
        match rest, hr with
        | r :: rs, _ =>
          rw [List.getLast?_cons_cons]
          exact hch
      have hdw : rest.dropWhile isWsChar ≠ [] := by
        intro hdrop
        match hrl : rest.getLast? with
        | none => exact hr (List.getLast?_eq_none_iff.mp hrl)
        | some ch =>
          have hws := List.dropWhile_eq_nil_iff.mp hdrop ch (List.mem_of_getLast?_eq_some hrl)
          rw [hlast2 ch hrl] at hws
          exact Bool.false_ne_true hws
      rw [tailMatch_fail rest _ hdw (fun ch hch => by
        intro heq
        exact hnb (heq ▸ List.mem_cons_of_mem c hch))]
      rw [ih (pre ++ [c]) hr (fun h => hnb (List.mem_cons_of_mem c h))
        (fun ch hch => hlt ch (List.mem_cons_of_mem c hch)) hlast2]
      rw [List.append_assoc]
      rfl

/-- Round trip of formatting and parsing for a well-behaved product:
the name holds no opening bracket and no line terminator, name and code
carry no leading or trailing whitespace, and the non-empty code holds no
closing bracket. -/
theorem roundTrip (name code : String)
    (hn1 : name.data.dropWhile isWsChar = name.data)
    (hn2 : name.data.reverse.dropWhile isWsChar = name.data.reverse)
    (hnb : '[' ∉ name.data)
    (hlt : ∀ ch ∈ name.data, isLineTerm ch = false)
    (hc0 : code ≠ "")
    (hc1 : code.data.dropWhile isWsChar = code.data)
    (hc2 : code.data.reverse.dropWhile isWsChar = code.data.reverse)
    (hcb : ¬ (']' ∈ code.data)) :
    parseProductString (formatProductWithCode (some ⟨name, code⟩)) = ⟨name, code⟩ := by
  have hcd : code.data ≠ [] := by
    intro h
    apply hc0
    cases code
    simp_all
  have hfmt : formatProductWithCode (some ⟨name, code⟩) = name ++ " [" ++ code ++ "]" := by
    unfold formatProductWithCode
    dsimp only
    rw [if_neg hc0]
  rw [hfmt]
  have hdata : (name ++ " [" ++ code ++ "]").data
      = name.data ++ (' ' :: '[' :: (code.data ++ [']'])) := by
    rw [String.data_append, String.data_append, String.data_append]
    show name.data ++ [' ', '['] ++ code.data ++ [']'] = _
    simp
  have hne : name ++ " [" ++ code ++ "]" ≠ "" := by
    intro h
    have := congrArg String.data h
    rw [hdata] at this
    simp at this
  unfold parseProductString
  rw [if_neg hne, hdata]
  by_cases hnm : name.data = []
  · rw [hnm, List.nil_append]
    unfold scanSplit
    rw [if_neg (by decide)]
    rw [tailMatch_code _ code.data hcd hcb ?side2]
    case side2 =>
      rw [List.dropWhile_cons_of_neg (by decide)]
    dsimp only
    have htr : jsTrim [' '] = [] := by decide
    have hname : name = "" := by
      cases name
      simp_all
    rw [List.nil_append, htr, jsTrim_of_stable code.data hc1 hc2, hname]
  · rw [scanSplit_name_step code.data hcd hcb name.data [] hnm hnb hlt
      (getLast_not_ws name.data hn2)]
    dsimp only
    rw [List.nil_append, jsTrim_of_stable name.data hn1 hn2,
      jsTrim_of_stable code.data hc1 hc2]

/-- Parsing a non-empty trim-stable string with no trailing bracket
suffix (the expression does not match) returns the string itself with an
empty code. -/
theorem parse_bare (name : String) (hne : name ≠ "")
    (hnone : scanSplit [] name.data = none)
    (h1 : name.data.dropWhile isWsChar = name.data)
    (h2 : name.data.reverse.dropWhile isWsChar = name.data.reverse) :
    parseProductString name = ⟨name, ""⟩ := by
  unfold parseProductString
  rw [if_neg hne, hnone]
  dsimp only
  rw [jsTrim_of_stable name.data h1 h2]

/-! ### Claim C6: product display string round trip -/

/-- Claim C6, counterexample: the claim quantifies over every product
with a non-empty code, but a name with trailing whitespace is not
recovered — the regular expression absorbs the whitespace into `\s*`
and the parse trims the name, so `⟨"A ", "B"⟩` comes back as
`⟨"A", "B"⟩`. -/
theorem claim_c6_counterexample :
    parseProductString (formatProductWithCode (some ⟨"A ", "B"⟩)) = ⟨"A", "B"⟩ ∧
    parseProductString (formatProductWithCode (some ⟨"A ", "B"⟩)) ≠ ⟨"A ", "B"⟩ := by
  decide

/-- Claim C6 (amended): the format-parse round trip recovers
`⟨name, code⟩` whenever the name holds no opening bracket, no line
terminator and no leading or trailing whitespace, and the code is
non-empty with no closing bracket and no leading or trailing whitespace
— in particular `⟨"Widget", "W1"⟩` round-trips; for an empty code the
format yields just the name, and parsing a non-empty trim-stable name
without a trailing bracket suffix returns that name with an empty
code. -/
theorem claim_c6_amended :
    (∀ name code : String,
      name.data.dropWhile isWsChar = name.data →
      name.data.reverse.dropWhile isWsChar = name.data.reverse →
      ('[' ∉ name.data) →
      (∀ ch ∈ name.data, isLineTerm ch = false) →
      code ≠ "" →
      code.data.dropWhile isWsChar = code.data →
      code.data.reverse.dropWhile isWsChar = code.data.reverse →
      (']' ∉ code.data) →
      parseProductString (formatProductWithCode (some ⟨name, code⟩)) = ⟨name, code⟩) ∧
    parseProductString (formatProductWithCode (some ⟨"Widget", "W1"⟩)) = ⟨"Widget", "W1"⟩ ∧
    (∀ p : Product, p.code = "" → formatProductWithCode (some p) = p.name) ∧
    (∀ name : String, name ≠ "" →
      scanSplit [] name.data = none →
      name.data.dropWhile isWsChar = name.data →
      name.data.reverse.dropWhile isWsChar = name.data.reverse →
      parseProductString name = ⟨name, ""⟩) := by
  refine ⟨?_, by decide, ?_, ?_⟩
  · intro name code hn1 hn2 hnb hlt hc0 hc1 hc2 hcb
    exact roundTrip name code hn1 hn2 hnb hlt hc0 hc1 hc2 hcb
  · intro p h
    unfold formatProductWithCode
    dsimp only
    rw [if_pos h]
  · intro name hne hnone h1 h2
    exact parse_bare name hne hnone h1 h2

/-- Claim C6 witness: the amended theorem applied to `⟨"Widget", "W1"⟩`,
to an empty code, and to the bare name `Widget`. -/
theorem claim_c6_witness :
    parseProductString (formatProductWithCode (some ⟨"Widget", "W1"⟩)) = ⟨"Widget", "W1"⟩ ∧
    formatProductWithCode (some ⟨"Widget", ""⟩) = ("Widget" : String) ∧
    parseProductString ("Widget") = ⟨"Widget", ""⟩ := by
  have h := claim_c6_amended
  refine ⟨h.1 ("Widget") ("W1") (by decide) (by decide) (by decide) (by decide)
    (by decide) (by decide) (by decide) (by decide),
    h.2.2.1 ⟨"Widget", ""⟩ rfl,
    h.2.2.2 ("Widget") (by decide) (by decide) (by decide) (by decide)⟩
